import Mathlib

/-!
Verification of the ccan slist intrusive singly-linked list
(src/ccan/slist/slist.h, src/ccan/slist/slist.c).

Shallow embedding: node and head addresses are integers; the mutable store
of `next` pointers is a function `Heap : Int -> Int` mapping the address of
each slist_node to the address stored in its `next` field.  A struct
slist_head is itself a single slist_node (its sentinel link), so the head
is just an address `h` in the same heap.  Owner-record pointers are
recovered from link addresses by subtracting the byte displacement `off`,
exactly as the C code does with `(const char *)n - off`.

All functions are the non-debug build (CCAN_SLIST_DEBUG is not defined in
the source: slist.h line 4 is commented out), in which slist_debug and
slist_debug_node are the identity.  The debug-build checker of slist.c is
embedded separately below (see DbgHeap); note that it reads a `prev` field
that struct slist_node does not have.
-/

abbrev Heap := Int → Int

/-- Write the next pointer of the node at address a. -/
def writeNext (a v : Int) (s : Heap) : Heap := fun x => if x = a then v else s x

/-- The SLIST_LOC file-and-line string passed for diagnostics; its contents
are irrelevant in the non-debug build. -/
def SLIST_LOC : String := "slist.h"

/-- slist_debug(h, loc) in the non-debug build: ((void)loc, h).  Returns the
head unchanged and performs no store. -/
def slist_debug (h : Int) (loc : String) (s : Heap) : Int × Heap := (h, s)

/-- slist_debug_node(n, loc) in the non-debug build: ((void)loc, n). -/
def slist_debug_node (n : Int) (loc : String) (s : Heap) : Int × Heap := (n, s)

/-- slist_head_init: h->n.next = &h->n. -/
def slist_head_init (h : Int) (s : Heap) : Heap := writeNext h h s

/-- slist_add_after_: n->next = p->next; p->next = n; (void)slist_debug(h, abortstr). -/
def slist_add_after_ (h p n : Int) (abortstr : String) (s : Heap) : Heap :=
  let s1 := writeNext n (s p) s
  let s2 := writeNext p n s1
  (slist_debug h abortstr s2).2

/-- slist_add_: n->next = h->n.next; h->n.next = n. -/
def slist_add_ (h n : Int) (abortstr : String) (s : Heap) : Heap :=
  writeNext h n (writeNext n (s h) s)

/-- slist_empty_: (void)slist_debug(h, abortstr); return h->n.next == &h->n. -/
def slist_empty_ (h : Int) (abortstr : String) (s : Heap) : Bool :=
  let s1 := (slist_debug h abortstr s).2
  decide (s1 h = h)

/-- slist_top_: if (slist_empty(h)) return NULL; return (const char *)h->n.next - off.
NULL is modelled as none, a returned owner pointer as some. -/
def slist_top_ (h off : Int) (s : Heap) : Option Int :=
  if slist_empty_ h SLIST_LOC s then none else some (s h - off)

/-- slist_pop_: if (slist_empty(h)) return NULL; n = h->n.next;
h->n.next = n->next; return (const char *)n - off.  The pair is the
returned owner pointer (none for NULL) and the heap after the call. -/
def slist_pop_ (h off : Int) (s : Heap) : Option Int × Heap :=
  if slist_empty_ h SLIST_LOC s then (none, s)
  else
    let n := s h
    (some (n - off), writeNext h (s n) s)

/-- slist_node_to_off_: (void *)((char *)node - off). -/
def slist_node_to_off_ (node off : Int) : Int := node - off

/-- slist_node_from_off_: (struct slist_node *)((char *)ptr + off). -/
def slist_node_from_off_ (ptr off : Int) : Int := ptr + off

/-- The loop of the slist_for_each_off macro, tracking the current node
address cur (the macro's i is always cur - off and the continuation test
compares slist_node_from_off_(i, off) = cur against the head's address).
Fuel bounds the number of iterations so the function is total on arbitrary
heaps; every theorem below supplies fuel at least the chain length. -/
def traverseFrom (s : Heap) (h off : Int) : Int → Nat → List Int
  | _, 0 => []
  | cur, fuel+1 =>
    if cur = h then []
    else slist_node_to_off_ cur off :: traverseFrom s h off (s cur) fuel

/-- slist_for_each_off: i starts at slist_debug(h, SLIST_LOC)->n.next minus
off and the loop yields one owner pointer per visited node. -/
def slist_for_each_off (h off : Int) (fuel : Nat) (s : Heap) : List Int :=
  traverseFrom s h off ((slist_debug h SLIST_LOC s).2 h) fuel

/-- slist_check_node in the non-debug build (slist.c lines 39-43):
returns the node argument; no store is read or written. -/
def slist_check_node (node : Int) (abortstr : String) (s : Heap) : Int × Heap :=
  (node, s)

/-! ### The debug-build integrity checker

slist.c lines 7-37 (under #ifdef CCAN_SLIST_DEBUG) walk the chain and
compare `n->prev` against the previous node.  struct slist_node
(slist.h lines 21-23) has no member named prev, so this code does not
even compile in a debug build; to give it any semantics at all we extend
the node state with the prev field the code dereferences.  No documented
operation (init, add, add_after, pop) ever writes that field, so it holds
arbitrary values on every documented chain. -/

structure DbgHeap where
  next : Int → Int
  prev : Int → Int

/-- corrupt(): with an abort string the C code prints a diagnostic and
calls abort(); with NULL it returns NULL.  Neither outcome is a success
value, so both are none. -/
def corrupt (abortstr : Option String) : Option Int := none

/-- The loop of the debug slist_check_node, on state (p, n), with fuel
bounding the walk. -/
def slist_check_node_debug_loop (s : DbgHeap) (node : Int) (abortstr : Option String) :
    Int → Int → Nat → Option Int
  | _, _, 0 => none
  | p, n, fuel+1 =>
    if n = node then
      if s.prev node = p then some node else corrupt abortstr
    else
      if s.prev n = p then slist_check_node_debug_loop s node abortstr n (s.next n) fuel
      else corrupt abortstr

/-- slist_check_node in the debug build: p = node, n = node->next, then the
walk-and-check loop, then the final check of node->prev. -/
def slist_check_node_debug (s : DbgHeap) (node : Int) (abortstr : Option String)
    (fuel : Nat) : Option Int :=
  slist_check_node_debug_loop s node abortstr node (s.next node) fuel

/-- A debug-build heap whose next pointers are a freshly initialized head at
address 0 (built solely by the documented operation slist_head_init) and
whose prev fields hold arbitrary values (37) that no documented operation
ever wrote. -/
def baseHeap : Heap := fun _ => 0

def dbgExample : DbgHeap :=
  { next := slist_head_init 0 baseHeap, prev := fun _ => 37 }

/-! ### Ghost model of documented usage

Reach h s ls holds when the heap s is reachable from some initial heap by
slist_head_init on h followed by documented operations, and ls lists the
addresses of the live element links in chain order (first element first).
The side conditions are the documented usage rules: an inserted link must
not currently be a member of the list (a link belongs to at most one list,
spec section 3), and insert-after's existing link must be a member (here:
the last link of the prefix h :: ls1). -/

inductive Reach (h : Int) : Heap → List Int → Prop
  | init (s0 : Heap) : Reach h (slist_head_init h s0) []
  | add {s : Heap} {ls : List Int} {n : Int} (ab : String) :
      Reach h s ls → n ∉ h :: ls → Reach h (slist_add_ h n ab s) (n :: ls)
  | add_after {s : Heap} {ls1 ls2 : List Int} {n : Int} (ab : String) :
      Reach h s (ls1 ++ ls2) → n ∉ h :: (ls1 ++ ls2) →
      Reach h
        (slist_add_after_ h ((h :: ls1).getLast (List.cons_ne_nil h ls1)) n ab s)
        (ls1 ++ n :: ls2)
  | pop {s : Heap} {ls : List Int} (off : Int) :
      Reach h s ls → Reach h (slist_pop_ h off s).2 ls.tail

/-- chainSeg s a l b: starting at the node at address a, the next pointers
run exactly through the addresses in l and then reach b. -/
def chainSeg (s : Heap) : Int → List Int → Int → Prop
  | a, [], b => s a = b
  | a, x :: xs, b => s a = x ∧ chainSeg s x xs b

/-- The structural invariant: the sentinel cycle h -> ls -> h with all the
participating addresses distinct. -/
def goodChain (h : Int) (s : Heap) (ls : List Int) : Prop :=
  chainSeg s h ls h ∧ (h :: ls).Nodup

/-- Iterating the next-pointer map j times from address a. -/
def nextIter (s : Heap) : Nat → Int → Int
  | 0, a => a
  | j+1, a => nextIter s j (s a)

/-- Iterating the documented prepend over a list of new links. -/
def addAll (h : Int) (ns : List Int) (s : Heap) : Heap :=
  ns.foldl (fun acc n => slist_add_ h n SLIST_LOC acc) s

/-- Iterating slist_pop_ k times. -/
def popN (h off : Int) : Nat → Heap → Heap
  | 0, s => s
  | k+1, s => popN h off k (slist_pop_ h off s).2

/-- A concrete reachable heap: head at address 0, then slist_add of link 1,
then slist_add of link 2.  Its chain is 0 -> 2 -> 1 -> 0. -/
def exState : Heap :=
  slist_add_ 0 2 SLIST_LOC (slist_add_ 0 1 SLIST_LOC (slist_head_init 0 baseHeap))

/-! ## Helper lemmas -/

theorem exReach : Reach 0 exState [2, 1] :=
  Reach.add SLIST_LOC (Reach.add SLIST_LOC (Reach.init baseHeap) (by decide)) (by decide)

theorem chainSeg_shift {s s' : Heap} {b : Int} :
    ∀ (l : List Int) (a a' : Int), s' a' = s a → (∀ y ∈ l, s' y = s y) →
      chainSeg s a l b → chainSeg s' a' l b := by
  intro l
  induction l with
  | nil =>
    intro a a' h1 _ hc
    exact h1.trans hc
  | cons x xs ih =>
    intro a a' h1 h2 hc
    obtain ⟨hx, hrest⟩ := hc
    exact ⟨h1.trans hx,
      ih x x (h2 x (by simp)) (fun y hy => h2 y (by simp [hy])) hrest⟩

theorem chainSeg_insert {s : Heap} {b n : Int} :
    ∀ (l1 : List Int) (a : Int) (l2 : List Int),
      chainSeg s a (l1 ++ l2) b → (a :: (l1 ++ l2)).Nodup → n ∉ a :: (l1 ++ l2) →
      chainSeg (writeNext ((a :: l1).getLast (List.cons_ne_nil a l1)) n
                  (writeNext n (s ((a :: l1).getLast (List.cons_ne_nil a l1))) s))
        a (l1 ++ n :: l2) b := by
  intro l1
  induction l1 with
  | nil =>
    intro a l2 hc hnd hn
    simp only [List.nil_append] at hc hn ⊢
    have hna : n ≠ a := by simp at hn; exact fun e => hn.1 e
    have hgl : (a :: ([] : List Int)).getLast (List.cons_ne_nil a []) = a := rfl
    rw [hgl]
    refine ⟨by simp [writeNext], ?_⟩
    refine chainSeg_shift l2 a n ?_ ?_ hc
    · simp [writeNext, hna]
    · intro y hy
      have hya : y ≠ a := by
        intro e; subst e
        exact (List.nodup_cons.mp hnd).1 hy
      have hyn : y ≠ n := by
        intro e; subst e
        simp at hn; exact hn.2 hy
      simp [writeNext, hya, hyn]
  | cons x xs ih =>
    intro a l2 hc hnd hn
    simp only [List.cons_append] at hc hnd hn ⊢
    obtain ⟨hx, hrest⟩ := hc
    have hgl : ((a :: x :: xs).getLast (List.cons_ne_nil a (x :: xs))) =
        ((x :: xs).getLast (List.cons_ne_nil x xs)) :=
      List.getLast_cons (List.cons_ne_nil x xs)
    have hax : a ∉ (x :: xs) ++ l2 := (List.nodup_cons.mp hnd).1
    have hap : a ≠ (x :: xs).getLast (List.cons_ne_nil x xs) := by
      intro e
      exact hax (by rw [e]; exact List.mem_append_left _ (List.getLast_mem _))
    have han : a ≠ n := by simp at hn; exact fun e => hn.1 e.symm
    rw [hgl]
    constructor
    · have : a ≠ n := han
      simp [writeNext, hap, this, hx]
    · have hnd' : (x :: (xs ++ l2)).Nodup := (List.nodup_cons.mp hnd).2
      have hn' : n ∉ x :: (xs ++ l2) := by
        simp at hn ⊢
        exact ⟨hn.2.1, hn.2.2⟩
      exact ih x l2 hrest hnd' hn'

/-- The chain invariant holds on every reachable heap. -/
theorem reach_good {h : Int} {s : Heap} {ls : List Int} (hr : Reach h s ls) :
    goodChain h s ls := by
  induction hr with
  | init s0 =>
    refine ⟨?_, by simp⟩
    show slist_head_init h s0 h = h
    simp [slist_head_init, writeNext]
  | add ab hres hn ih =>
    obtain ⟨hc, hnd⟩ := ih
    rename_i s ls n
    constructor
    · have := @chainSeg_insert s h n [] h ls
        (by simpa using hc) (by simpa using hnd) (by simpa using hn)
      simpa [slist_add_] using this
    · have hnh : n ≠ h := by simp at hn; exact fun e => hn.1 e
      have hnls : n ∉ ls := by simp at hn; exact hn.2
      obtain ⟨hh, hlsnd⟩ := List.nodup_cons.mp hnd
      exact List.nodup_cons.mpr ⟨by simp [Ne.symm hnh, hh],
        List.nodup_cons.mpr ⟨hnls, hlsnd⟩⟩
  | add_after ab hres hn ih =>
    obtain ⟨hc, hnd⟩ := ih
    rename_i s ls1 ls2 n
    constructor
    · have := @chainSeg_insert s h n ls1 h ls2 hc hnd hn
      simpa [slist_add_after_, slist_debug] using this
    · have h1 : ((h :: ls1) ++ n :: ls2).Nodup := by
        rw [List.nodup_middle]
        exact List.nodup_cons.mpr ⟨by simpa using hn, by simpa using hnd⟩
      simpa using h1
  | pop off hres ih =>
    obtain ⟨hc, hnd⟩ := ih
    rename_i s ls
    cases ls with
    | nil =>
      have hsh : s h = h := hc
      have hemp : slist_empty_ h SLIST_LOC s = true := by
        simp [slist_empty_, slist_debug, hsh]
      constructor
      · show chainSeg (slist_pop_ h off s).2 h [] h
        simp [slist_pop_, hemp]
        exact hsh
      · simp
    | cons x xs =>
      obtain ⟨hx, hrest⟩ := hc
      have hxh : x ≠ h := by
        have := (List.nodup_cons.mp hnd).1
        simp at this
        exact fun e => this.1 e.symm
      have hemp : slist_empty_ h SLIST_LOC s = false := by
        simp [slist_empty_, slist_debug, hx, hxh]
      have hpop : (slist_pop_ h off s).2 = writeNext h (s x) s := by
        simp [slist_pop_, hemp, hx]
      constructor
      · rw [hpop]
        refine chainSeg_shift xs x h ?_ ?_ hrest
        · simp [writeNext]
        · intro y hy
          have hyh : y ≠ h := by
            intro e; subst e
            have := (List.nodup_cons.mp hnd).1
            simp at this
            exact this.2 hy
          simp [writeNext, hyh]
      · obtain ⟨hh, hnd'⟩ := List.nodup_cons.mp hnd
        simp at hh
        exact List.nodup_cons.mpr ⟨hh.2, (List.nodup_cons.mp hnd').2⟩

theorem traverseFrom_chain {s : Heap} {h off : Int} :
    ∀ (l : List Int) (a : Int) (fuel : Nat),
      chainSeg s a l h → h ∉ l → l.length ≤ fuel →
      traverseFrom s h off (s a) fuel = l.map (fun x => x - off) := by
  intro l
  induction l with
  | nil =>
    intro a fuel hc _ _
    have hsa : s a = h := hc
    cases fuel <;> simp [traverseFrom, hsa]
  | cons x xs ih =>
    intro a fuel hc hh hlen
    obtain ⟨hx, hrest⟩ := hc
    cases fuel with
    | zero => simp at hlen
    | succ f =>
      have hxh : x ≠ h := by
        intro e; exact hh (by simp [e])
      rw [hx]
      show (if x = h then [] else slist_node_to_off_ x off :: traverseFrom s h off (s x) f) = _
      rw [if_neg hxh]
      have hrec := ih x f hrest (fun e => hh (by simp [e])) (by simpa using hlen)
      rw [hrec]
      simp [slist_node_to_off_]

/-- Full traversal of a well-formed chain yields exactly the owner pointers
of the live links, in chain order. -/
theorem slist_for_each_off_chain {h off : Int} {s : Heap} {ls : List Int}
    (hg : goodChain h s ls) (fuel : Nat) (hfuel : ls.length ≤ fuel) :
    slist_for_each_off h off fuel s = ls.map (fun x => x - off) := by
  have hnotin : h ∉ ls := (List.nodup_cons.mp hg.2).1
  show traverseFrom s h off (s h) fuel = _
  exact traverseFrom_chain ls h fuel hg.1 hnotin hfuel

/-! ## Claims -/

/-- Claim C9: slist_add is exactly slist_add_after specialized to the
head's own sentinel link: for every heap, head and node, the two produce
the same chain state. -/
theorem slist_add_refines_add_after (h n : Int) (ab : String) (s : Heap) :
    slist_add_ h n ab s = slist_add_after_ h h n ab s := rfl

/-- Claim C8: in the non-debug build, slist_check_node and the slist_debug
macro are no-ops that report success unconditionally: each returns its
node or head argument unchanged and leaves the heap untouched. -/
theorem slist_check_node_noop_spec :
    ∀ (node : Int) (ab : String) (s : Heap) (hd : Int) (loc : String),
      slist_check_node node ab s = (node, s) ∧ slist_debug hd loc s = (hd, s) :=
  fun _ _ _ _ _ => ⟨rfl, rfl⟩

/-- Claim C4: slist_top_ and slist_pop_ return the empty-result (none,
modelling NULL) exactly when the list is empty, and a freshly initialized
head is empty, yields the empty-result from both, and is left unchanged by
the empty pop; absence of an element is a value, not a fault. -/
theorem slist_empty_result_spec (h off : Int) (ab : String) (s s0 : Heap) :
    (slist_top_ h off s = none ↔ slist_empty_ h ab s = true) ∧
    ((slist_pop_ h off s).1 = none ↔ slist_empty_ h ab s = true) ∧
    slist_empty_ h ab (slist_head_init h s0) = true ∧
    slist_top_ h off (slist_head_init h s0) = none ∧
    (slist_pop_ h off (slist_head_init h s0)).1 = none ∧
    (slist_pop_ h off (slist_head_init h s0)).2 = slist_head_init h s0 := by
  have hinit : slist_head_init h s0 h = h := by simp [slist_head_init, writeNext]
  by_cases hs : s h = h <;>
    simp [slist_top_, slist_pop_, slist_empty_, slist_debug, hs, hinit]

/-- Claim C5: on a non-empty list slist_pop_ returns the owner record of
the first link (its address minus the displacement) and afterwards the
head's link references the removed element's old successor; on an empty
list it returns the empty-result with the heap unchanged. -/
theorem slist_pop_spec (h off : Int) (s : Heap) :
    (slist_empty_ h SLIST_LOC s = false →
      (slist_pop_ h off s).1 = some (s h - off) ∧
      (slist_pop_ h off s).2 h = s (s h)) ∧
    (slist_empty_ h SLIST_LOC s = true → slist_pop_ h off s = (none, s)) := by
  constructor
  · intro he
    simp [slist_pop_, he, writeNext]
  · intro he
    simp [slist_pop_, he]

theorem slist_pop_spec_witness :
    (slist_pop_ 0 5 exState).1 = some (2 - 5) ∧ (slist_pop_ 0 5 exState).2 0 = 1 := by
  have hmain := (slist_pop_spec 0 5 exState).1 (by decide)
  exact ⟨by rw [hmain.1]; decide, by rw [hmain.2]; decide⟩

/-- Claim C10: on a non-empty list slist_pop_ writes only the head's next
pointer: the popped node's own next field and every address other than the
head are unchanged. -/
theorem slist_pop_frame (h off : Int) (s : Heap)
    (hne : slist_empty_ h SLIST_LOC s = false) :
    (slist_pop_ h off s).2 (s h) = s (s h) ∧
    ∀ y : Int, y ≠ h → (slist_pop_ h off s).2 y = s y := by
  have hsh : s h ≠ h := by simpa [slist_empty_, slist_debug] using hne
  constructor
  · simp [slist_pop_, hne, writeNext, hsh]
  · intro y hy
    simp [slist_pop_, hne, writeNext, hy]

theorem slist_pop_frame_witness :
    (slist_pop_ 0 5 exState).2 2 = 1 ∧ (slist_pop_ 0 5 exState).2 1 = 0 := by
  have hmain := slist_pop_frame 0 5 exState (by decide)
  refine ⟨?_, ?_⟩
  · have h2 := hmain.2 2 (by decide)
    rw [h2]; decide
  · have h1 := hmain.2 1 (by decide)
    rw [h1]; decide

/-- Claim C7: on a non-empty list, popping the first element and
re-prepending the same link restores the heap exactly, hence also every
full traversal. -/
theorem slist_pop_add_roundtrip (h off : Int) (ab : String) (s : Heap)
    (hne : slist_empty_ h SLIST_LOC s = false) :
    slist_add_ h (s h) ab ((slist_pop_ h off s).2) = s ∧
    ∀ (off2 : Int) (fuel : Nat),
      slist_for_each_off h off2 fuel (slist_add_ h (s h) ab ((slist_pop_ h off s).2)) =
      slist_for_each_off h off2 fuel s := by
  have hsh : s h ≠ h := by simpa [slist_empty_, slist_debug] using hne
  have hstate : slist_add_ h (s h) ab ((slist_pop_ h off s).2) = s := by
    funext x
    by_cases hxh : x = h
    · subst hxh
      simp [slist_add_, slist_pop_, hne, writeNext]
    · by_cases hxn : x = s h
      · subst hxn
        simp [slist_add_, slist_pop_, hne, writeNext, hxh, hsh]
      · simp [slist_add_, slist_pop_, hne, writeNext, hxh, hxn]
  exact ⟨hstate, fun off2 fuel => by rw [hstate]⟩

theorem slist_pop_add_roundtrip_witness :
    slist_add_ 0 (exState 0) SLIST_LOC ((slist_pop_ 0 5 exState).2) = exState :=
  (slist_pop_add_roundtrip 0 5 SLIST_LOC exState (by decide)).1

/-- Claim C3 (code bug): the debug-build integrity checker compares a prev
field that struct slist_node does not have.  Supplying that field as state
no documented operation writes, the checker rejects even a freshly
initialized (empty, documented) head: it returns none instead of success,
contradicting the claim that it reports success on every documented chain. -/
theorem slist_check_node_debug_rejects_documented_chain :
    slist_empty_ 0 SLIST_LOC dbgExample.next = true ∧
    slist_check_node_debug dbgExample 0 none 5 = none := by
  exact ⟨by decide, by decide⟩

/-- Claim C1: prepending links a, then b, then c onto an initialized head
makes a full traversal visit the owner records in the order c, b, a. -/
theorem slist_add_traversal_order (h a b c off : Int) (s0 : Heap) (fuel : Nat)
    (hah : a ≠ h) (hbh : b ≠ h) (hch : c ≠ h)
    (hab : a ≠ b) (hac : a ≠ c) (hbc : b ≠ c) (hfuel : 3 ≤ fuel) :
    slist_for_each_off h off fuel
      (slist_add_ h c SLIST_LOC
        (slist_add_ h b SLIST_LOC
          (slist_add_ h a SLIST_LOC (slist_head_init h s0)))) =
      [c - off, b - off, a - off] := by
  have h1 : Reach h (slist_add_ h a SLIST_LOC (slist_head_init h s0)) [a] :=
    Reach.add SLIST_LOC (Reach.init s0) (by simpa using hah)
  have h2 : Reach h
      (slist_add_ h b SLIST_LOC (slist_add_ h a SLIST_LOC (slist_head_init h s0)))
      [b, a] :=
    Reach.add SLIST_LOC h1 (by
      simp only [List.mem_cons, List.mem_singleton, not_or]
      exact ⟨hbh, Ne.symm hab, by simp⟩)
  have h3 : Reach h
      (slist_add_ h c SLIST_LOC
        (slist_add_ h b SLIST_LOC (slist_add_ h a SLIST_LOC (slist_head_init h s0))))
      [c, b, a] :=
    Reach.add SLIST_LOC h2 (by
      simp only [List.mem_cons, List.mem_singleton, not_or]
      exact ⟨hch, Ne.symm hbc, Ne.symm hac, by simp⟩)
  have := @slist_for_each_off_chain h off _ _ (reach_good h3) fuel (by simpa using hfuel)
  simpa using this

theorem slist_add_traversal_order_witness :
    slist_for_each_off 0 10 3
      (slist_add_ 0 3 SLIST_LOC
        (slist_add_ 0 2 SLIST_LOC
          (slist_add_ 0 1 SLIST_LOC (slist_head_init 0 baseHeap)))) =
      [3 - 10, 2 - 10, 1 - 10] :=
  slist_add_traversal_order 0 1 2 3 10 baseHeap 3
    (by decide) (by decide) (by decide) (by decide) (by decide) (by decide)
    (by decide)

theorem reach_addAll {h : Int} :
    ∀ (ns : List Int) {s : Heap} {ls : List Int}, Reach h s ls →
      (h :: (ls ++ ns)).Nodup →
      Reach h (addAll h ns s) (ns.reverse ++ ls) := by
  intro ns
  induction ns with
  | nil =>
    intro s ls hr _
    simpa [addAll] using hr
  | cons n ns ih =>
    intro s ls hr hnd
    have hperm : (h :: (ls ++ n :: ns)).Perm (h :: (n :: (ls ++ ns))) :=
      List.Perm.cons h List.perm_middle
    have hnd2 : (h :: (n :: (ls ++ ns))).Nodup := hperm.nodup hnd
    have hn : n ∉ h :: ls := by
      intro hmem
      rcases List.mem_cons.mp hmem with he | hmem2
      · exact (List.nodup_cons.mp hnd2).1 (by simp [he])
      · exact (List.nodup_cons.mp (List.nodup_cons.mp hnd2).2).1
          (List.mem_append_left _ hmem2)
    have hr' : Reach h (slist_add_ h n SLIST_LOC s) (n :: ls) :=
      Reach.add SLIST_LOC hr hn
    have hnd' : (h :: ((n :: ls) ++ ns)).Nodup := by
      simpa using hnd2
    have hres := ih hr' hnd'
    have hfold : addAll h (n :: ns) s = addAll h ns (slist_add_ h n SLIST_LOC s) := rfl
    rw [hfold]
    have hl : ns.reverse ++ (n :: ls) = (n :: ns).reverse ++ ls := by
      simp
    rw [← hl]
    exact hres

theorem reach_popN {h off : Int} :
    ∀ (k : Nat) {s : Heap} {ls : List Int}, Reach h s ls →
      Reach h (popN h off k s) (ls.drop k) := by
  intro k
  induction k with
  | zero =>
    intro s ls hr
    simpa [popN] using hr
  | succ k ih =>
    intro s ls hr
    have h1 : Reach h (slist_pop_ h off s).2 ls.tail := Reach.pop off hr
    have h2 := ih h1
    have hdrop : ls.tail.drop k = ls.drop (k + 1) := by
      rw [← List.drop_one, List.drop_drop, Nat.add_comm]
    rw [hdrop] at h2
    exact h2

/-- Claim C6: after k prepends of distinct fresh links onto an initialized
head, a full traversal yields exactly k owner records, and after k
subsequent pops it yields none. -/
theorem slist_cardinality (h off : Int) (s0 : Heap) (ns : List Int) (fuel : Nat)
    (hnd : (h :: ns).Nodup) (hfuel : ns.length ≤ fuel) :
    (slist_for_each_off h off fuel (addAll h ns (slist_head_init h s0))).length =
      ns.length ∧
    slist_for_each_off h off fuel
      (popN h off ns.length (addAll h ns (slist_head_init h s0))) = [] := by
  have hreach0 : Reach h (addAll h ns (slist_head_init h s0)) (ns.reverse ++ []) :=
    reach_addAll ns (Reach.init s0) (by simpa using hnd)
  rw [List.append_nil] at hreach0
  have hg := reach_good hreach0
  constructor
  · rw [slist_for_each_off_chain hg fuel (by simpa using hfuel)]
    simp
  · have hpop : Reach h (popN h off ns.length (addAll h ns (slist_head_init h s0)))
        (ns.reverse.drop ns.length) := reach_popN ns.length hreach0
    have hdrop : ns.reverse.drop ns.length = [] := by
      apply List.drop_eq_nil_of_le
      simp
    rw [hdrop] at hpop
    have hg2 := reach_good hpop
    rw [slist_for_each_off_chain hg2 fuel (by simp)]
    simp

theorem slist_cardinality_witness :
    (slist_for_each_off 0 5 2 (addAll 0 [1, 2] (slist_head_init 0 baseHeap))).length = 2 ∧
    slist_for_each_off 0 5 2 (popN 0 5 2 (addAll 0 [1, 2] (slist_head_init 0 baseHeap))) = [] :=
  slist_cardinality 0 5 baseHeap [1, 2] 2 (by decide) (by decide)

theorem nextIter_add (s : Heap) : ∀ (m n : Nat) (a : Int),
    nextIter s (m + n) a = nextIter s n (nextIter s m a) := by
  intro m
  induction m with
  | zero => intro n a; rw [Nat.zero_add]; rfl
  | succ m ih =>
    intro n a
    have he : m + 1 + n = (m + n) + 1 := by omega
    rw [he]
    show nextIter s (m + n) (s a) = nextIter s n (nextIter s (m + 1) a)
    rw [ih n (s a)]
    rfl

theorem chainSeg_nextIter {s : Heap} {b : Int} :
    ∀ (l : List Int) (a : Int), chainSeg s a l b →
      ∀ (i : Nat) (hi : i < (a :: l).length), nextIter s i a = (a :: l).get ⟨i, hi⟩ := by
  intro l
  induction l with
  | nil =>
    intro a _ i hi
    have h0 : i = 0 := by simpa using Nat.lt_one_iff.mp (by simpa using hi)
    subst h0
    rfl
  | cons x xs ih =>
    intro a hc i hi
    obtain ⟨hx, hrest⟩ := hc
    cases i with
    | zero => rfl
    | succ i =>
      show nextIter s i (s a) = (x :: xs).get ⟨i, by simpa using hi⟩
      rw [hx]
      exact ih x hrest i (by simpa using hi)

theorem chainSeg_nextIter_last {s : Heap} {b : Int} :
    ∀ (l : List Int) (a : Int), chainSeg s a l b → nextIter s (l.length + 1) a = b := by
  intro l
  induction l with
  | nil =>
    intro a hc
    exact hc
  | cons x xs ih =>
    intro a hc
    obtain ⟨hx, hrest⟩ := hc
    show nextIter s (xs.length + 1) (s a) = b
    rw [hx]
    exact ih x hrest

theorem nextIter_cycle {s : Heap} {h : Int} {K : Nat} (hK : nextIter s K h = h) :
    ∀ (q r : Nat), nextIter s (q * K + r) h = nextIter s r h := by
  intro q
  induction q with
  | zero => intro r; simp
  | succ q ih =>
    intro r
    have he : (q + 1) * K + r = K + (q * K + r) := by ring
    rw [he, nextIter_add, hK]
    exact ih r

theorem nextIter_mod {s : Heap} {h : Int} {K : Nat} (hK0 : 0 < K)
    (hK : nextIter s K h = h) (m : Nat) :
    nextIter s m h = nextIter s (m % K) h := by
  conv_lhs => rw [← Nat.div_add_mod m K]
  rw [Nat.mul_comm]
  exact nextIter_cycle hK (m / K) (m % K)

/-- Claim C2, counterexample to the claim as stated: on the reachable heap
exState (head 0, live links [2, 1], so two live elements), starting from
link 1 — a link in the chain — and following next exactly two steps (the
number of live elements) does not reach the head's own link. -/
theorem slist_cycle_steps_counterexample :
    Reach 0 exState [2, 1] ∧ (1 : Int) ∈ ((0 : Int) :: [2, 1]) ∧
      nextIter exState 2 1 ≠ 0 :=
  ⟨exReach, by decide, by decide⟩

/-- Claim C2, amended: for every heap reachable by the documented
operations, the chain is a single cycle through the sentinel: starting
from any link of the chain, following next returns to that same link after
exactly (live elements + 1) steps, and reaches the head's own link exactly
once within those steps; hence no sub-cycles and no dangling tails. -/
theorem slist_single_cycle {h : Int} {s : Heap} {ls : List Int} (hr : Reach h s ls) :
    ∀ L ∈ h :: ls, nextIter s (ls.length + 1) L = L ∧
      ∃! j : Nat, 1 ≤ j ∧ j ≤ ls.length + 1 ∧ nextIter s j L = h := by
  obtain ⟨hchain, hnd⟩ := reach_good hr
  intro L hL
  obtain ⟨⟨i, hi⟩, hget⟩ := List.mem_iff_get.mp hL
  have hA : ∀ (m : Nat) (hm : m < (h :: ls).length),
      nextIter s m h = (h :: ls).get ⟨m, hm⟩ :=
    chainSeg_nextIter ls h hchain
  have hKh : nextIter s (ls.length + 1) h = h := chainSeg_nextIter_last ls h hchain
  have hiK : i < ls.length + 1 := by simpa using hi
  have hLi : nextIter s i h = L := by rw [hA i hi]; exact hget
  have key : ∀ m : Nat, nextIter s m L = nextIter s (i + m) h := by
    intro m
    rw [nextIter_add s i m h, hLi]
  constructor
  · rw [key (ls.length + 1), Nat.add_comm, nextIter_add, hKh, hLi]
  · refine ⟨ls.length + 1 - i, ⟨by omega, by omega, ?_⟩, ?_⟩
    · rw [key (ls.length + 1 - i)]
      have he : i + (ls.length + 1 - i) = ls.length + 1 := by omega
      rw [he, hKh]
    · rintro j ⟨hj1, hj2, hj3⟩
      rw [key j] at hj3
      have hmod : nextIter s ((i + j) % (ls.length + 1)) h = h := by
        rw [← nextIter_mod (by omega) hKh (i + j)]
        exact hj3
      have hmlt : (i + j) % (ls.length + 1) < (h :: ls).length :=
        by simpa using Nat.mod_lt _ (by omega)
      have hget0 : (h :: ls).get ⟨(i + j) % (ls.length + 1), hmlt⟩ =
          (h :: ls).get ⟨0, by simp⟩ := by
        rw [← hA _ hmlt, hmod]
        rfl
      have hz : (i + j) % (ls.length + 1) = 0 :=
        congrArg Fin.val ((List.Nodup.get_inj_iff hnd).mp hget0)
      obtain ⟨c, hc⟩ := Nat.dvd_of_mod_eq_zero hz
      match c, hc with
      | 0, hc => omega
      | 1, hc => omega
      | (c+2), hc =>
        have hge : (ls.length + 1) * (c + 2) ≥ (ls.length + 1) * 2 :=
          Nat.mul_le_mul_left _ (by omega)
        omega

theorem slist_single_cycle_witness :
    nextIter exState 3 2 = 2 ∧
      ∃! j : Nat, 1 ≤ j ∧ j ≤ 3 ∧ nextIter exState j 2 = 0 :=
  slist_single_cycle exReach 2 (by decide)
